import Mathlib

/-!
Verification of `autots/tools/impute.py`: missing-value filling for a
multivariate time-series table.  A pandas `DataFrame` of floats is embedded as
a row index, a list of column labels, and column-major cell data where a
missing cell (`NaN`) is `none` and an observed float is `some` of a rational.
The two core algorithms (the vectorized gap compression in `fake_date_fill`
and `SeasonalityMotifImputer.impute`) and the `FillNA` dispatcher are
translated function by function from the source.
-/

/-- A pandas DataFrame of floats: row index (timestamps), column labels, and
column-major cell data; a missing cell (`NaN`) is `none`. -/
structure DF where
  index : List Int
  names : List String
  cols : List (List (Option ℚ))
deriving DecidableEq, Repr

/-- Well-formedness: every column holds one cell per index entry. -/
def DF.wf (t : DF) : Prop := ∀ c ∈ t.cols, c.length = t.index.length

instance (t : DF) : Decidable t.wf :=
  inferInstanceAs (Decidable (∀ c ∈ t.cols, c.length = t.index.length))

/-- No missing cells anywhere in the table. -/
def DF.complete (t : DF) : Prop := ∀ c ∈ t.cols, ∀ x ∈ c, x.isSome = true

instance (t : DF) : Decidable t.complete :=
  inferInstanceAs (Decidable (∀ c ∈ t.cols, ∀ x ∈ c, x.isSome = true))

/-- `Series.fillna(0)` on one column. -/
def fillnaZero (c : List (Option ℚ)) : List (Option ℚ) :=
  c.map (fun x => some (x.getD 0))

/-- `fill_zero(df)`: `df.fillna(0)`. -/
def fill_zero (t : DF) : DF := ⟨t.index, t.names, t.cols.map fillnaZero⟩

/-- Forward fill on one column, carrying the last observed value. -/
def ffillAux : Option ℚ → List (Option ℚ) → List (Option ℚ)
  | _, [] => []
  | last, none :: rest => last :: ffillAux last rest
  | _, some v :: rest => some v :: ffillAux (some v) rest

/-- `Series.fillna(method='ffill')`. -/
def ffillCol (c : List (Option ℚ)) : List (Option ℚ) := ffillAux none c

/-- `Series.fillna(method='bfill')`: forward fill on the reversed column. -/
def bfillCol (c : List (Option ℚ)) : List (Option ℚ) :=
  (ffillAux none c.reverse).reverse

/-- `df.fillna(method='bfill')`. -/
def bfillDF (t : DF) : DF := ⟨t.index, t.names, t.cols.map bfillCol⟩

/-- `fill_forward(df)`: `df.fillna(method='ffill').fillna(method='bfill').fillna(0)`. -/
def fill_forward (t : DF) : DF :=
  ⟨t.index, t.names, t.cols.map (fun c => fillnaZero (bfillCol (ffillCol c)))⟩

/-- The non-missing values of a column, in their original order. -/
def presentVals (c : List (Option ℚ)) : List ℚ := c.filterMap id

/-- `np.nanmean` over one column: `none` when every cell is missing. -/
def nanmeanCol (c : List (Option ℚ)) : Option ℚ :=
  if (presentVals c).length = 0 then none
  else some ((presentVals c).sum / ((presentVals c).length : ℚ))

/-- `fill_mean(df)`:
`arr = np.nan_to_num(arr) + np.isnan(arr) * np.nan_to_num(np.nanmean(arr, axis=0))`,
rewrapped with the input's index and columns. -/
def fill_mean (t : DF) : DF :=
  ⟨t.index, t.names, t.cols.map (fun c =>
    c.map (fun x =>
      some (x.getD 0 + (if x.isSome then 0 else 1) * (nanmeanCol c).getD 0)))⟩

/-- Median of an already sorted list, `np.median` style: the middle element for
odd length, the average of the two middle elements for even length. -/
def medianOfSorted (s : List ℚ) : Option ℚ :=
  if s.length = 0 then none
  else if s.length % 2 = 1 then some (s.getD (s.length / 2) 0)
  else some ((s.getD (s.length / 2 - 1) 0 + s.getD (s.length / 2) 0) / 2)

/-- `np.nanmedian` over one column: median of the non-missing values. -/
def nanmedianCol (c : List (Option ℚ)) : Option ℚ :=
  medianOfSorted (List.insertionSort (· ≤ ·) (presentVals c))

/-- `fill_median(df)`:
`arr = np.nan_to_num(arr) + pd.isna(arr) * np.nan_to_num(np.nanmedian(arr, axis=0))`. -/
def fill_median (t : DF) : DF :=
  ⟨t.index, t.names, t.cols.map (fun c =>
    c.map (fun x =>
      some (x.getD 0 + (if x.isSome then 0 else 1) * (nanmedianCol c).getD 0)))⟩

/-- `Series.rolling(window, min_periods=1).mean()`: at row `i`, the mean of the
non-missing values among rows `i-window+1 .. i`, or missing if none. -/
def rollCol (w : Nat) (c : List (Option ℚ)) : List (Option ℚ) :=
  (List.range c.length).map (fun i => nanmeanCol ((c.take (i + 1)).drop (i + 1 - w)))

/-- `df.fillna(other)` cellwise for equally labelled frames. -/
def fillnaFromCol (c u : List (Option ℚ)) : List (Option ℚ) :=
  List.zipWith (fun x y => if x.isSome then x else y) c u

/-- `rolling_mean(df, window)`:
`fill_forward(df.fillna(df.rolling(window=window, min_periods=1).mean()))`. -/
def rolling_mean (t : DF) (w : Nat) : DF :=
  fill_forward ⟨t.index, t.names, t.cols.map (fun c => fillnaFromCol c (rollCol w c))⟩

/-- `df + df` for identically labelled frames (NaN propagates, as in pandas). -/
def dfAdd (a b : DF) : DF :=
  ⟨a.index, a.names, List.zipWith (List.zipWith (Option.map₂ (· + ·))) a.cols b.cols⟩

/-- `df * scalar`. -/
def dfSmul (a : DF) (q : ℚ) : DF :=
  ⟨a.index, a.names, a.cols.map (List.map (Option.map (· * q)))⟩

/-- `df / scalar`. -/
def dfDivC (a : DF) (q : ℚ) : DF :=
  ⟨a.index, a.names, a.cols.map (List.map (Option.map (· / q)))⟩

/-- `biased_ffill(df, mean_weight)`:
`((fill_mean(df) * mean_weight) + fill_forward(df)) / (1 + mean_weight)`. -/
def biased_ffill (t : DF) (mean_weight : ℚ) : DF :=
  dfDivC (dfAdd (dfSmul (fill_mean t) mean_weight) (fill_forward t)) (1 + mean_weight)

/-- Sort key of `fake_date_fill`:
`to_sort = np.where(np.isnan(arr), -indices0, indices0)` at row `i`. -/
def gapKey (c : List (Option ℚ)) (i : Nat) : Int :=
  if (c.getD i none).isSome then (i : Int) else -(i : Int)

/-- One column of `arr[np.abs(np.sort(to_sort, axis=0)), indices[1]]`: sort the
keys ascending, then gather the cells at the keys' absolute values. -/
def compressColumn (c : List (Option ℚ)) : List (Option ℚ) :=
  (List.insertionSort (· ≤ ·) ((List.range c.length).map (gapKey c))).map
    (fun z => c.getD z.natAbs none)

/-- Keep the entries of a list whose position satisfies `keep`. -/
def pickRows (keep : Nat → Bool) (l : List α) : List α :=
  (l.enum.filter (fun p => keep p.1)).map Prod.snd

/-- Drop the rows (of the index and of every column) whose position fails `keep`. -/
def filterRows (t : DF) (keep : Nat → Bool) : DF :=
  ⟨pickRows keep t.index, t.names, t.cols.map (pickRows keep)⟩

/-- Number of non-missing cells in row `i` across all columns. -/
def rowPresentCount (t : DF) (i : Nat) : Nat :=
  t.cols.countP (fun c => (c.getD i none).isSome)

/-- `df.empty`: a frame with zero rows or zero columns. -/
def DF.isEmptyDF (t : DF) : Bool := t.index.isEmpty || t.cols.isEmpty

/-- `fake_date_fill(df, back_method)` (the numpy vectorized version): compress
each column's gaps via the signed-index sort, zero-fill the original frame when
the compressed frame is empty, then apply the tail policy.  The `ValueError`
raised on an unrecognized `back_method` is modelled as `none`. -/
def fake_date_fill (t : DF) (back_method : String) : Option DF :=
  let t2 : DF := ⟨t.index, t.names, t.cols.map compressColumn⟩
  let t2 := if t2.isEmptyDF then fill_zero t else t2
  if back_method = "bfill" then some (fill_forward t2)
  else if back_method = "slice" then
    let thresh := t.cols.length / 2
    let thresh := if thresh > 1 then thresh else 1
    let t3 := filterRows t2 (fun i => thresh ≤ rowPresentCount t2 i)
    if t3.isEmptyDF || t3.index.length < 8 then some (fill_forward t2)
    else some (fill_forward t3)
  else if back_method = "slice_all" then
    some (filterRows t2 (fun i => t2.cols.all (fun c => (c.getD i none).isSome)))
  else if back_method = "keepna" then some t2
  else none

/-- Keys of the `df_interpolate` registry dict, in insertion order (the
duplicate `'spline'` literal collapses to the single dict key). -/
def df_interpolate_full : List String :=
  ["linear", "time", "pad", "nearest", "zero", "quadratic", "cubic", "spline",
   "barycentric", "piecewise_polynomial", "pchip", "akima", "polynomial",
   "krogh", "cubicspline", "from_derivatives", "slinear"]

/-- Modelled from the spec: the SeasonalMatcher collaborator
(`autots.tools.seasonal.seasonal_independent_match` composed with
`np.argsort(scores)`, absent from this module) yields, for every target row
position, the list of all row positions ordered most-similar-first (§6). -/
def SeasonalRank : Type := Nat → List Nat

structure SeasonalityMotifImputer where
  k : Nat
  datepart_method : String
  distance_metric : String

/-- Number of non-missing entries of a column slice. -/
def countSome (l : List (Option ℚ)) : Nat := l.countP (fun x => x.isSome)

/-- `np.ma.masked_array(arrd, mask_negative).sum(axis=2)` at one cell: entry
`c` of the analog value list is kept while the running count of valid analogs
(`np.cumsum(~arrd_mask, axis=-1)`) is still ≤ k, and missing entries were
zeroed beforehand (`arrd[arrd_mask] = 0`). -/
def maskedAnalogSum (l : List (Option ℚ)) (k : Nat) : ℚ :=
  ((List.range l.length).map (fun c =>
    if countSome (l.take (c + 1)) ≤ k then (l.getD c none).getD 0 else 0)).sum

/-- The analog value list `arrd[i, j, :]` for target row `i` in column `c`:
the column's cells gathered in similarity order. -/
def analogVals (rank : SeasonalRank) (c : List (Option ℚ)) (i : Nat) : List (Option ℚ) :=
  (rank i).map (fun r => c.getD r none)

/-- `SeasonalityMotifImputer.impute(df)`: every cell of `df_impt` is the masked
analog sum divided by `k`, and `df.where(~df.isnull(), df_impt)` keeps the
original cell wherever it was observed. -/
def SeasonalityMotifImputer.impute (imp : SeasonalityMotifImputer)
    (rank : SeasonalRank) (t : DF) : DF :=
  ⟨t.index, t.names, t.cols.map (fun c =>
    (List.range c.length).map (fun i =>
      match c.getD i none with
      | some v => some v
      | none => some (maskedAnalogSum (analogVals rank c i) imp.k / (imp.k : ℚ))))⟩

/-- Modelled from the spec: the external collaborators consumed as black boxes
(§1, §6) and absent from this module — `pandas.DataFrame.interpolate`, the
sklearn estimator imputers (`fit_transform` returning an unlabeled,
fully-observed array, per the §2 full-coverage expectation), the
DatepartRegression imputer, and the SeasonalMatcher ranking. -/
structure Collab where
  interp : String → DF → DF
  iterative : DF → List (List ℚ)
  iterativeET : DF → List (List ℚ)
  knn : DF → List (List ℚ)
  datepart : DF → DF
  rank : SeasonalRank

/-- Wrap an estimator's unlabeled array back into a frame carrying the input's
index and column labels, as the dispatcher does after `fit_transform`. -/
def wrapEstimator (t : DF) (a : List (List ℚ)) : DF :=
  ⟨t.index, t.names, a.map (List.map some)⟩

/-- `df.isnull().values.any()`. -/
def DF.anyNull (t : DF) : Bool := t.cols.any (fun c => c.any (fun x => x.isNone))

/-- The interpolation branch of `FillNA`:
`df.interpolate(method=method, order=5).fillna(method='bfill')`, then
`fill_forward` if any null remains. -/
def interpBranch (co : Collab) (m : String) (t : DF) : DF :=
  let u := bfillDF (co.interp m t)
  if u.anyNull then fill_forward u else u

/-- `str(method).replace(" ", "_")`: every space character becomes an
underscore (the pattern is a single character, so this is a per-character map). -/
def normalizeMethod (s : String) : String :=
  String.mk (s.data.map (fun ch => if ch = ' ' then '_' else ch))

/-- `FillNA(df, method, window)`: normalize the method name (whitespace to
underscore) and dispatch.  The two `fake_date` branches pass the literal tail
policies `'slice'` and `'slice_all'`, which never raise, so the `Option` is
discharged with a default that is provably never used. -/
def FillNA (co : Collab) (t : DF) (method : String) (window : Nat) : DF :=
  let m := normalizeMethod method
  if m = "zero" then fill_zero t
  else if m = "ffill" then fill_forward t
  else if m = "mean" then fill_mean t
  else if m = "median" then fill_median t
  else if m = "rolling_mean" then rolling_mean t window
  else if m = "rolling_mean_24" then rolling_mean t 24
  else if m = "ffill_mean_biased" then biased_ffill t 1
  else if m = "fake_date" then (fake_date_fill t "slice").getD t
  else if m = "fake_date_slice" then (fake_date_fill t "slice_all").getD t
  else if m ∈ df_interpolate_full then interpBranch co m t
  else if m = "IterativeImputer" then wrapEstimator t (co.iterative t)
  else if m = "IterativeImputerExtraTrees" then wrapEstimator t (co.iterativeET t)
  else if m = "KNNImputer" then wrapEstimator t (co.knn t)
  else if m = "SeasonalityMotifImputer" then
    (SeasonalityMotifImputer.mk 3 "common_fourier" "canberra").impute co.rank t
  else if m = "DatepartRegressionImputer" then co.datepart t
  else if m = "None" then t
  else t

/-- Every method identifier `FillNA` recognizes, in normalized form. -/
def recognizedMethods : List String :=
  ["zero", "ffill", "mean", "median", "rolling_mean", "rolling_mean_24",
   "ffill_mean_biased", "fake_date", "fake_date_slice"] ++ df_interpolate_full ++
  ["IterativeImputer", "IterativeImputerExtraTrees", "KNNImputer",
   "SeasonalityMotifImputer", "DatepartRegressionImputer", "None"]

/-- The compressed frame `df2` before the empty-frame guard of `fake_date_fill`. -/
def fdComp (t : DF) : DF := ⟨t.index, t.names, t.cols.map compressColumn⟩

/-- `df2` after the empty-frame guard. -/
def fdT2 (t : DF) : DF := if (fdComp t).isEmptyDF then fill_zero t else fdComp t

/-- The row threshold of the `'slice'` tail policy. -/
def fdThresh (t : DF) : Nat :=
  if t.cols.length / 2 > 1 then t.cols.length / 2 else 1

/-- `df3 = df2.dropna(thresh=thresh, axis=0)` of the `'slice'` tail policy. -/
def fdT3 (t : DF) : DF :=
  filterRows (fdT2 t) (fun i => fdThresh t ≤ rowPresentCount (fdT2 t) i)

/-- The plain float array underlying a frame (defined where it is complete). -/
def toVals (t : DF) : List (List ℚ) := t.cols.map (List.map (fun x => x.getD 0))


/-- A trivial instantiation of the external collaborators, used to evaluate
the dispatcher theorems on concrete tables: interpolation and the
DatepartRegression imputer act pointwise, estimators return the plain array. -/
def trivialCollab : Collab :=
  ⟨fun _ u => u, toVals, toVals, toVals, fill_zero, fun _ => []⟩

/-! ### Gap compression: characterization of `compressColumn` -/

/-- Row positions of the missing cells of a column, in increasing order. -/
def missingIdx (c : List (Option ℚ)) : List Nat :=
  (List.range c.length).filter (fun i => (c.getD i none).isNone)

/-- Row positions of the observed cells of a column, in increasing order. -/
def presentIdx (c : List (Option ℚ)) : List Nat :=
  (List.range c.length).filter (fun i => (c.getD i none).isSome)

/-- Number of missing cells of a column. -/
def countNone (c : List (Option ℚ)) : Nat := c.countP (fun x => x.isNone)

/-- The sorted gap keys of a column: all the negated missing positions (in
decreasing position order) followed by all the present positions in order. -/
def gapTarget (c : List (Option ℚ)) : List Int :=
  (missingIdx c).reverse.map (fun i : ℕ => -(i : Int)) ++
    (presentIdx c).map (fun i : ℕ => (i : Int))

theorem map_getD_range {α : Type} (c : List α) (d : α) :
    (List.range c.length).map (fun i => c.getD i d) = c := by
  induction c with
  | nil => rfl
  | cons x xs ih =>
    rw [List.length_cons, List.range_succ_eq_map, List.map_cons, List.map_map]
    refine congrArg₂ _ rfl ?_
    refine Eq.trans (List.map_congr_left ?_) ih
    intro a _
    simp

theorem gapKeys_perm (c : List (Option ℚ)) :
    List.Perm ((List.range c.length).map (gapKey c)) (gapTarget c) := by
  have hpm : List.Perm (presentIdx c ++ missingIdx c) (List.range c.length) := by
    have h := List.filter_append_perm (fun i => (c.getD i none).isSome) (List.range c.length)
    refine List.Perm.trans (List.Perm.append_left _ ?_) h
    refine List.Perm.of_eq (List.filter_congr ?_)
    intro i _
    cases c.getD i none <;> rfl
  refine List.Perm.trans ((hpm.map (gapKey c)).symm) ?_
  rw [List.map_append]
  have hpres : (presentIdx c).map (gapKey c) = (presentIdx c).map (fun i : ℕ => (i : Int)) := by
    refine List.map_congr_left ?_
    intro i hi
    have h2 := (List.mem_filter.mp hi).2
    simp only [gapKey]
    rw [if_pos (by simpa using h2)]
  have hmiss : (missingIdx c).map (gapKey c) = (missingIdx c).map (fun i : ℕ => -(i : Int)) := by
    refine List.map_congr_left ?_
    intro i hi
    have h2 := (List.mem_filter.mp hi).2
    simp only [gapKey]
    rw [if_neg (by simp_all)]
  rw [hpres, hmiss]
  refine List.Perm.trans List.perm_append_comm ?_
  refine List.Perm.append_right _ ?_
  exact (List.Perm.map _ (List.reverse_perm _)).symm

theorem gapTarget_sorted (c : List (Option ℚ)) :
    List.Sorted (· ≤ ·) (gapTarget c) := by
  unfold gapTarget List.Sorted
  rw [List.pairwise_append]
  refine ⟨?_, ?_, ?_⟩
  · have h0 : List.Pairwise (· ≤ ·) (missingIdx c) :=
      (List.pairwise_le_range c.length).filter _
    have h1 : List.Pairwise (fun a b : ℕ => b ≤ a) (missingIdx c).reverse :=
      List.pairwise_reverse.mpr h0
    have hH : ∀ a b : ℕ, b ≤ a → -(a : Int) ≤ -(b : Int) := by
      intro a b hab
      omega
    exact h1.map _ hH
  · have h0 : List.Pairwise (· ≤ ·) (presentIdx c) :=
      (List.pairwise_le_range c.length).filter _
    have hH : ∀ a b : ℕ, a ≤ b → (a : Int) ≤ (b : Int) := by
      intro a b hab
      omega
    exact h0.map _ hH
  · intro a ha b hb
    obtain ⟨i, _, rfl⟩ := List.mem_map.mp ha
    obtain ⟨j, _, rfl⟩ := List.mem_map.mp hb
    omega

theorem insertionSort_gapKeys (c : List (Option ℚ)) :
    List.insertionSort (· ≤ ·) ((List.range c.length).map (gapKey c)) = gapTarget c :=
  List.eq_of_perm_of_sorted ((List.perm_insertionSort _ _).trans (gapKeys_perm c))
    (List.sorted_insertionSort _ _) (gapTarget_sorted c)

theorem length_missingIdx (c : List (Option ℚ)) :
    (missingIdx c).length = countNone c := by
  unfold missingIdx countNone
  rw [← List.countP_eq_length_filter]
  conv_rhs => rw [← map_getD_range c none]
  rw [List.countP_map]
  rfl

/-- The compressed column is: all the missing cells first, then every present
value in its original relative order. -/
theorem compressColumn_eq (c : List (Option ℚ)) :
    compressColumn c =
      List.replicate (countNone c) none ++ c.filter (fun x => x.isSome) := by
  unfold compressColumn
  rw [insertionSort_gapKeys, gapTarget, List.map_append]
  refine congrArg₂ _ ?_ ?_
  · rw [List.map_map]
    refine List.eq_replicate_iff.mpr ⟨?_, ?_⟩
    · rw [List.length_map, List.length_reverse, length_missingIdx]
    · intro b hb
      obtain ⟨i, hi, rfl⟩ := List.mem_map.mp hb
      have hi' := (List.mem_filter.mp (List.mem_reverse.mp hi)).2
      simp only [Function.comp_apply, Int.natAbs_neg, Int.natAbs_ofNat]
      simp_all [Option.isNone_iff_eq_none]
  · rw [List.map_map]
    have h1 : ((fun z : Int => c.getD z.natAbs none) ∘ fun i : ℕ => (i : Int)) =
        fun i : ℕ => c.getD i none := by
      funext i
      simp
    rw [h1]
    conv_rhs => rw [← map_getD_range c none]
    rw [List.filter_map]
    rfl

theorem length_compressColumn (c : List (Option ℚ)) :
    (compressColumn c).length = c.length := by
  unfold compressColumn
  rw [List.length_map, List.length_insertionSort, List.length_map, List.length_range]

theorem presentVals_filter_isSome (c : List (Option ℚ)) :
    presentVals (c.filter (fun x => x.isSome)) = presentVals c := by
  induction c with
  | nil => rfl
  | cons x xs ih =>
    cases x with
    | none => simpa [presentVals, List.filter_cons] using ih
    | some v => simpa [presentVals, List.filter_cons] using ih

theorem presentVals_replicate_none (n : Nat) :
    presentVals (List.replicate n none) = [] := by
  unfold presentVals
  rw [List.filterMap_replicate_of_none rfl]

/-- Compression preserves the non-missing values (order included). -/
theorem presentVals_compressColumn (c : List (Option ℚ)) :
    presentVals (compressColumn c) = presentVals c := by
  rw [compressColumn_eq]
  unfold presentVals
  rw [List.filterMap_append]
  rw [show List.filterMap id (List.replicate (countNone c) none) = [] from
    presentVals_replicate_none _]
  rw [List.nil_append]
  exact presentVals_filter_isSome c

theorem countP_isNone_replicate_none (n : Nat) :
    (List.replicate n (none : Option ℚ)).countP (fun x : Option ℚ => x.isNone) = n := by
  rw [List.countP_eq_length_filter]
  have h : (List.replicate n (none : Option ℚ)).filter (fun x : Option ℚ => x.isNone) =
      List.replicate n (none : Option ℚ) := by
    refine List.filter_eq_self.mpr ?_
    intro a ha
    rw [List.eq_of_mem_replicate ha]
    rfl
  rw [h, List.length_replicate]

/-- Compression preserves the number of missing cells. -/
theorem countNone_compressColumn (c : List (Option ℚ)) :
    countNone (compressColumn c) = countNone c := by
  rw [compressColumn_eq]
  show (List.replicate (countNone c) (none : Option ℚ) ++
    c.filter (fun x => x.isSome)).countP (fun x : Option ℚ => x.isNone) = countNone c
  rw [List.countP_append, countP_isNone_replicate_none]
  have h2 : (c.filter fun x : Option ℚ => x.isSome).countP
      (fun x : Option ℚ => x.isNone) = 0 := by
    rw [List.countP_eq_zero]
    intro a ha
    have h3 := (List.mem_filter.mp ha).2
    cases a
    · simp_all
    · simp
  rw [h2]
  rfl

/-- A fully observed column compresses to itself. -/
theorem compressColumn_of_complete (c : List (Option ℚ))
    (h : ∀ x ∈ c, x.isSome = true) : compressColumn c = c := by
  rw [compressColumn_eq]
  have h0 : countNone c = 0 := by
    rw [countNone, List.countP_eq_zero]
    intro a ha
    have h3 := h a ha
    cases a
    · simp at h3
    · simp
  rw [h0, List.replicate_zero, List.nil_append]
  exact List.filter_eq_self.mpr h

/-! ### Generic helpers -/

theorem ne_of_not_mem {m s : String} {L : List String} (h : m ∉ L) (hs : s ∈ L) :
    ¬ (m = s) := fun he => h (he ▸ hs)

theorem not_mem_of_subset {m : String} {L L' : List String} (h : m ∉ L)
    (hsub : ∀ x ∈ L', x ∈ L) : m ∉ L' := fun hm => h (hsub _ hm)

theorem getD_map_of_lt {α β : Type} (f : α → β) (l : List α) (j : Nat)
    (hj : j < l.length) (d : β) (d' : α) : (l.map f).getD j d = f (l.getD j d') := by
  rw [List.getD_eq_getElem?_getD, List.getD_eq_getElem?_getD, List.getElem?_map,
    List.getElem?_eq_getElem hj]
  rfl

theorem getD_range_of_lt (n i : Nat) (hi : i < n) (d : Nat) :
    (List.range n).getD i d = i := by
  rw [List.getD_eq_getElem?_getD,
    List.getElem?_eq_getElem (by rw [List.length_range]; exact hi)]
  rw [List.getElem_range]
  rfl

/-- Every position of the list satisfies `keep`: nothing is dropped. -/
theorem pickRows_all {α : Type} (keep : Nat → Bool) (l : List α)
    (h : ∀ i, i < l.length → keep i = true) : pickRows keep l = l := by
  unfold pickRows
  rw [List.filter_eq_self.mpr, List.enum_map_snd]
  intro p hp
  have h1 := List.mem_enum_iff_getElem?.mp hp
  have h2 : p.1 < l.length := by
    by_contra hcon
    rw [List.getElem?_eq_none (by omega)] at h1
    exact Option.noConfusion h1
  exact h p.1 h2

/-- A cell picked by `pickRows` sits at a kept position of the original list. -/
theorem mem_pickRows {α : Type} (keep : Nat → Bool) (l : List α) (x : α)
    (hx : x ∈ pickRows keep l) :
    ∃ i, i < l.length ∧ keep i = true ∧ l.getD i x = x := by
  unfold pickRows at hx
  obtain ⟨p, hp, rfl⟩ := List.mem_map.mp hx
  have hf := List.mem_filter.mp hp
  have h1 := List.mem_enum_iff_getElem?.mp hf.1
  have h2 : p.1 < l.length := by
    by_contra hcon
    rw [List.getElem?_eq_none (by omega)] at h1
    exact Option.noConfusion h1
  refine ⟨p.1, h2, hf.2, ?_⟩
  rw [List.getD_eq_getElem?_getD, h1]
  rfl

/-! ### The masked analog sum of `SeasonalityMotifImputer.impute` -/

theorem sum_range_map_succ (f : Nat → ℚ) (n : Nat) :
    ((List.range (n + 1)).map f).sum = f 0 + ((List.range n).map (fun c => f (c + 1))).sum := by
  rw [List.range_succ_eq_map, List.map_cons, List.sum_cons, List.map_map]
  rfl

theorem maskedAnalogSum_cons (x : Option ℚ) (rest : List (Option ℚ)) (k : Nat) :
    maskedAnalogSum (x :: rest) k =
      (if countSome [x] ≤ k then x.getD 0 else 0) +
      ((List.range rest.length).map (fun c =>
        if countSome (x :: rest.take (c + 1)) ≤ k
        then (rest.getD c none).getD 0 else 0)).sum := by
  unfold maskedAnalogSum
  rw [List.length_cons, sum_range_map_succ]
  rfl

/-- The masked cumulative-count sum equals the plain sum of the first `k`
valid analog values. -/
theorem maskedAnalogSum_eq (l : List (Option ℚ)) : ∀ k : Nat,
    maskedAnalogSum l k = ((l.filterMap id).take k).sum := by
  induction l with
  | nil =>
    intro k
    cases k <;> rfl
  | cons x rest ih =>
    intro k
    rw [maskedAnalogSum_cons]
    cases x with
    | none =>
      rw [if_pos (by simp [countSome] : countSome [(none : Option ℚ)] ≤ k)]
      have h2 : ∀ c ∈ List.range rest.length,
          (if countSome (none :: rest.take (c + 1)) ≤ k
           then (rest.getD c none).getD 0 else 0)
          = (if countSome (rest.take (c + 1)) ≤ k
             then (rest.getD c none).getD 0 else 0) := by
        intro c _
        have h3 : countSome ((none : Option ℚ) :: rest.take (c + 1)) =
            countSome (rest.take (c + 1)) := by
          simp [countSome, List.countP_cons]
        rw [h3]
      rw [List.map_congr_left h2]
      show (0 : ℚ) + maskedAnalogSum rest k = _
      rw [ih k]
      simp
    | some v =>
      cases k with
      | zero =>
        rw [if_neg (by simp [countSome, List.countP_cons])]
        have h2 : ∀ c ∈ List.range rest.length,
            (if countSome (some v :: rest.take (c + 1)) ≤ 0
             then (rest.getD c none).getD 0 else 0) = 0 := by
          intro c _
          rw [if_neg]
          simp [countSome, List.countP_cons]
        rw [List.map_congr_left h2]
        simp
      | succ j =>
        rw [if_pos (by simp [countSome, List.countP_cons])]
        have h2 : ∀ c ∈ List.range rest.length,
            (if countSome (some v :: rest.take (c + 1)) ≤ j + 1
             then (rest.getD c none).getD 0 else 0)
            = (if countSome (rest.take (c + 1)) ≤ j
               then (rest.getD c none).getD 0 else 0) := by
          intro c _
          have h3 : countSome (some v :: rest.take (c + 1)) =
              countSome (rest.take (c + 1)) + 1 := by
            simp [countSome, List.countP_cons]
          rw [h3]
          exact if_congr (by omega) rfl rfl
        rw [List.map_congr_left h2]
        show (v : ℚ) + maskedAnalogSum rest j = _
        rw [ih j]
        simp

/-- What `impute` writes into a missing cell (row `i`, column `j`). -/
theorem impute_missing_cell (imp : SeasonalityMotifImputer) (rank : SeasonalRank)
    (t : DF) (j i : Nat) (hj : j < t.cols.length)
    (hi : i < (t.cols.getD j []).length)
    (hmiss : (t.cols.getD j []).getD i none = none) :
    ((imp.impute rank t).cols.getD j []).getD i none =
      some ((((analogVals rank (t.cols.getD j []) i).filterMap id).take imp.k).sum /
        (imp.k : ℚ)) := by
  unfold SeasonalityMotifImputer.impute
  show ((t.cols.map _).getD j []).getD i none = _
  rw [getD_map_of_lt _ t.cols j hj [] []]
  rw [getD_map_of_lt _ (List.range (t.cols.getD j []).length) i
    (by rw [List.length_range]; exact hi) none 0]
  rw [getD_range_of_lt _ _ hi]
  rw [hmiss]
  rw [maskedAnalogSum_eq]

/-- A cell that held a value is left untouched by `impute`. -/
theorem impute_present_cell (imp : SeasonalityMotifImputer) (rank : SeasonalRank)
    (t : DF) (j i : Nat) (hj : j < t.cols.length)
    (hi : i < (t.cols.getD j []).length) (v : ℚ)
    (hval : (t.cols.getD j []).getD i none = some v) :
    ((imp.impute rank t).cols.getD j []).getD i none = some v := by
  unfold SeasonalityMotifImputer.impute
  show ((t.cols.map _).getD j []).getD i none = _
  rw [getD_map_of_lt _ t.cols j hj [] []]
  rw [getD_map_of_lt _ (List.range (t.cols.getD j []).length) i
    (by rw [List.length_range]; exact hi) none 0]
  rw [getD_range_of_lt _ _ hi]
  rw [hval]

/-! ### Completeness and identity lemmas for the simple fill routines -/

theorem fillnaZero_isSome (c : List (Option ℚ)) : ∀ x ∈ fillnaZero c, x.isSome = true := by
  intro x hx
  obtain ⟨y, _, rfl⟩ := List.mem_map.mp hx
  rfl

theorem fillnaZero_of_complete (c : List (Option ℚ)) (h : ∀ x ∈ c, x.isSome = true) :
    fillnaZero c = c := by
  unfold fillnaZero
  have h2 : ∀ x ∈ c, some (x.getD 0) = x := by
    intro x hx
    cases x
    · exact absurd (h _ hx) (by simp)
    · rfl
  rw [List.map_congr_left h2]
  exact List.map_id c

theorem fill_zero_complete (t : DF) : (fill_zero t).complete := by
  intro c hc x hx
  obtain ⟨c₀, _, rfl⟩ := List.mem_map.mp hc
  exact fillnaZero_isSome c₀ x hx

theorem fill_zero_id (t : DF) (h : t.complete) : fill_zero t = t := by
  obtain ⟨idx, nms, cols⟩ := t
  unfold fill_zero
  simp only []
  congr 1
  rw [List.map_congr_left (fun c hc => fillnaZero_of_complete c (h c hc))]
  exact List.map_id cols

theorem ffillAux_of_complete : ∀ (last : Option ℚ) (c : List (Option ℚ)),
    (∀ x ∈ c, x.isSome = true) → ffillAux last c = c := by
  intro last c
  induction c generalizing last with
  | nil =>
    intro h
    rfl
  | cons x rest ih =>
    intro h
    cases x with
    | none => exact absurd (h none (List.mem_cons_self _ _)) (by simp)
    | some v =>
      show some v :: ffillAux (some v) rest = some v :: rest
      rw [ih (some v) (fun y hy => h y (List.mem_cons_of_mem _ hy))]

theorem ffillCol_of_complete (c : List (Option ℚ)) (h : ∀ x ∈ c, x.isSome = true) :
    ffillCol c = c := ffillAux_of_complete none c h

theorem bfillCol_of_complete (c : List (Option ℚ)) (h : ∀ x ∈ c, x.isSome = true) :
    bfillCol c = c := by
  unfold bfillCol
  rw [ffillAux_of_complete none c.reverse (fun y hy => h y (List.mem_reverse.mp hy))]
  exact List.reverse_reverse c

theorem fill_forward_complete (t : DF) : (fill_forward t).complete := by
  intro c hc x hx
  obtain ⟨c₀, _, rfl⟩ := List.mem_map.mp hc
  exact fillnaZero_isSome _ x hx

theorem fill_forward_id (t : DF) (h : t.complete) : fill_forward t = t := by
  obtain ⟨idx, nms, cols⟩ := t
  unfold fill_forward
  simp only []
  congr 1
  have h2 : ∀ c ∈ cols, fillnaZero (bfillCol (ffillCol c)) = c := by
    intro c hc
    rw [ffillCol_of_complete c (h c hc), bfillCol_of_complete c (h c hc),
      fillnaZero_of_complete c (h c hc)]
  rw [List.map_congr_left h2]
  exact List.map_id cols

theorem fill_mean_complete (t : DF) : (fill_mean t).complete := by
  intro c hc x hx
  obtain ⟨c₀, _, rfl⟩ := List.mem_map.mp hc
  obtain ⟨y, _, rfl⟩ := List.mem_map.mp hx
  rfl

theorem fill_mean_id (t : DF) (h : t.complete) : fill_mean t = t := by
  obtain ⟨idx, nms, cols⟩ := t
  unfold fill_mean
  simp only []
  congr 1
  have h2 : ∀ c ∈ cols,
      c.map (fun x => some (x.getD 0 +
        (if x.isSome then 0 else 1) * (nanmeanCol c).getD 0)) = c := by
    intro c hc
    have h3 : ∀ x ∈ c, some (x.getD 0 +
        (if x.isSome then 0 else 1) * (nanmeanCol c).getD 0) = x := by
      intro x hx
      have h4 := h c hc x hx
      cases x with
      | none => simp at h4
      | some v => simp
    rw [List.map_congr_left h3]
    exact List.map_id c
  rw [List.map_congr_left h2]
  exact List.map_id cols

theorem fill_median_complete (t : DF) : (fill_median t).complete := by
  intro c hc x hx
  obtain ⟨c₀, _, rfl⟩ := List.mem_map.mp hc
  obtain ⟨y, _, rfl⟩ := List.mem_map.mp hx
  rfl

theorem fill_median_id (t : DF) (h : t.complete) : fill_median t = t := by
  obtain ⟨idx, nms, cols⟩ := t
  unfold fill_median
  simp only []
  congr 1
  have h2 : ∀ c ∈ cols,
      c.map (fun x => some (x.getD 0 +
        (if x.isSome then 0 else 1) * (nanmedianCol c).getD 0)) = c := by
    intro c hc
    have h3 : ∀ x ∈ c, some (x.getD 0 +
        (if x.isSome then 0 else 1) * (nanmedianCol c).getD 0) = x := by
      intro x hx
      have h4 := h c hc x hx
      cases x with
      | none => simp at h4
      | some v => simp
    rw [List.map_congr_left h3]
    exact List.map_id c
  rw [List.map_congr_left h2]
  exact List.map_id cols

theorem fillnaFromCol_of_complete : ∀ (c u : List (Option ℚ)),
    (∀ x ∈ c, x.isSome = true) → c.length ≤ u.length → fillnaFromCol c u = c := by
  intro c
  induction c with
  | nil =>
    intro u _ _
    rfl
  | cons x rest ih =>
    intro u h hl
    cases u with
    | nil => simp at hl
    | cons y ys =>
      show (if x.isSome then x else y) :: fillnaFromCol rest ys = x :: rest
      rw [if_pos (h x (List.mem_cons_self _ _))]
      rw [ih ys (fun z hz => h z (List.mem_cons_of_mem _ hz)) (by simpa using hl)]

theorem rollCol_length (w : Nat) (c : List (Option ℚ)) : (rollCol w c).length = c.length := by
  unfold rollCol
  rw [List.length_map, List.length_range]

theorem rolling_mean_complete (t : DF) (w : Nat) : (rolling_mean t w).complete :=
  fill_forward_complete _

theorem rolling_mean_id (t : DF) (w : Nat) (h : t.complete) : rolling_mean t w = t := by
  unfold rolling_mean
  have h2 : t.cols.map (fun c => fillnaFromCol c (rollCol w c)) = t.cols := by
    rw [List.map_congr_left (fun c hc => fillnaFromCol_of_complete c (rollCol w c)
      (h c hc) (by rw [rollCol_length]))]
    exact List.map_id t.cols
  rw [h2]
  have h3 : DF.mk t.index t.names t.cols = t := rfl
  rw [h3]
  exact fill_forward_id t h

theorem dfSmul_one (t : DF) : dfSmul t 1 = t := by
  obtain ⟨idx, nms, cols⟩ := t
  unfold dfSmul
  simp only []
  congr 1
  have h2 : ∀ c ∈ cols, c.map (Option.map (· * (1:ℚ))) = c := by
    intro c _
    have h3 : ∀ x ∈ c, Option.map (· * (1:ℚ)) x = x := by
      intro x _
      cases x
      · rfl
      · simp
    rw [List.map_congr_left h3]
    exact List.map_id c
  rw [List.map_congr_left h2]
  exact List.map_id cols

theorem biased_ffill_one_id (t : DF) (h : t.complete) : biased_ffill t 1 = t := by
  unfold biased_ffill
  rw [fill_mean_id t h, fill_forward_id t h, dfSmul_one]
  obtain ⟨idx, nms, cols⟩ := t
  unfold dfAdd dfDivC
  simp only []
  congr 1
  rw [List.zipWith_same, List.map_map]
  have h2 : ∀ c ∈ cols,
      ((fun c₀ => c₀.map (Option.map (· / (1 + 1 : ℚ)))) ∘
        fun a => List.zipWith (Option.map₂ (· + ·)) a a) c = c := by
    intro c hc
    show (List.zipWith (Option.map₂ (· + ·)) c c).map (Option.map (· / (1 + 1 : ℚ))) = c
    rw [List.zipWith_same, List.map_map]
    have h3 : ∀ x ∈ c, ((fun x₀ => Option.map (· / (1 + 1 : ℚ)) x₀) ∘
        fun a => Option.map₂ (· + ·) a a) x = x := by
      intro x hx
      have h4 := h c hc x hx
      cases x with
      | none => simp at h4
      | some v =>
        show Option.map (· / (1 + 1 : ℚ)) (Option.map₂ (· + ·) (some v) (some v)) = some v
        show some ((v + v) / (1 + 1)) = some v
        norm_num
    rw [List.map_congr_left h3]
    exact List.map_id c
  rw [List.map_congr_left h2]
  exact List.map_id cols

/-! ### `fake_date_fill`: branch reductions and properties -/

theorem getD_eq_of_lt {α : Type} (l : List α) (i : Nat) (h : i < l.length) (d d' : α) :
    l.getD i d = l.getD i d' := by
  rw [List.getD_eq_getElem?_getD, List.getD_eq_getElem?_getD, List.getElem?_eq_getElem h]
  rfl

theorem exists_of_mem_zipWith {α β γ : Type} {f : α → β → γ} :
    ∀ {as : List α} {bs : List β} {c : γ}, c ∈ List.zipWith f as bs →
      ∃ a b, a ∈ as ∧ b ∈ bs ∧ c = f a b := by
  intro as
  induction as with
  | nil =>
    intro bs c h
    simp at h
  | cons x xs ih =>
    intro bs c h
    cases bs with
    | nil => simp at h
    | cons y ys =>
      rw [List.zipWith_cons_cons] at h
      rcases List.mem_cons.mp h with h1 | h1
      · exact ⟨x, y, List.mem_cons_self _ _, List.mem_cons_self _ _, h1⟩
      · obtain ⟨a, b, ha, hb, rfl⟩ := ih h1
        exact ⟨a, b, List.mem_cons_of_mem _ ha, List.mem_cons_of_mem _ hb, rfl⟩

theorem biased_ffill_complete (t : DF) : (biased_ffill t 1).complete := by
  intro c hc x hx
  unfold biased_ffill dfDivC at hc
  obtain ⟨c₁, hc₁, rfl⟩ := List.mem_map.mp hc
  obtain ⟨y, hy, rfl⟩ := List.mem_map.mp hx
  unfold dfAdd at hc₁
  obtain ⟨a, b, ha, hb, rfl⟩ := exists_of_mem_zipWith hc₁
  obtain ⟨xa, xb, hxa, hxb, rfl⟩ := exists_of_mem_zipWith hy
  unfold dfSmul at ha
  obtain ⟨a₀, ha₀, rfl⟩ := List.mem_map.mp ha
  obtain ⟨za, hza, rfl⟩ := List.mem_map.mp hxa
  have h1 : za.isSome = true := fill_mean_complete t a₀ ha₀ za hza
  have h2 : xb.isSome = true := fill_forward_complete t b hb xb hxb
  obtain ⟨va, rfl⟩ := Option.isSome_iff_exists.mp h1
  obtain ⟨vb, rfl⟩ := Option.isSome_iff_exists.mp h2
  rfl

theorem fake_date_fill_slice_eq (t : DF) :
    fake_date_fill t "slice" =
      (if (fdT3 t).isEmptyDF || (fdT3 t).index.length < 8
       then some (fill_forward (fdT2 t))
       else some (fill_forward (fdT3 t))) := rfl

theorem fake_date_fill_slice_all_eq (t : DF) :
    fake_date_fill t "slice_all" =
      some (filterRows (fdT2 t)
        (fun i => (fdT2 t).cols.all (fun c => (c.getD i none).isSome))) := rfl

theorem fake_date_fill_keepna_eq (t : DF) :
    fake_date_fill t "keepna" = some (fdT2 t) := rfl

theorem fdT2_names (t : DF) : (fdT2 t).names = t.names := by
  unfold fdT2
  split <;> rfl

theorem fdT2_index (t : DF) : (fdT2 t).index = t.index := by
  unfold fdT2
  split <;> rfl

theorem fdComp_id (t : DF) (h : t.complete) : fdComp t = t := by
  obtain ⟨idx, nms, cols⟩ := t
  unfold fdComp
  simp only []
  congr 1
  rw [List.map_congr_left (fun c hc => compressColumn_of_complete c (h c hc))]
  exact List.map_id cols

theorem fdT2_id (t : DF) (h : t.complete) : fdT2 t = t := by
  unfold fdT2
  rw [fdComp_id t h]
  split
  · exact fill_zero_id t h
  · rfl

theorem fdT2_complete_of_complete (t : DF) (h : t.complete) : (fdT2 t).complete := by
  rw [fdT2_id t h]
  exact h

/-- For a complete, well-formed table every row passes the `'slice'` threshold,
provided the table has at least one column. -/
theorem getD_mem_of_lt {α : Type} (l : List α) (i : Nat) (h : i < l.length) (d : α) :
    l.getD i d ∈ l := by
  rw [List.getD_eq_getElem?_getD, List.getElem?_eq_getElem h, Option.getD_some]
  exact List.getElem_mem h

theorem rowPresentCount_full (t : DF) (h : t.complete) (hwf : t.wf) (i : Nat)
    (hi : i < t.index.length) : rowPresentCount t i = t.cols.length := by
  have hall : ∀ c ∈ t.cols, ((c.getD i none).isSome) = true := by
    intro c hc
    have hi' : i < c.length := by
      rw [hwf c hc]
      exact hi
    exact h c hc _ (getD_mem_of_lt c i hi' none)
  unfold rowPresentCount
  rw [List.countP_eq_length_filter, List.filter_eq_self.mpr hall]

theorem filterRows_all (t : DF) (keep : Nat → Bool) (hwf : t.wf)
    (h : ∀ i, i < t.index.length → keep i = true) : filterRows t keep = t := by
  obtain ⟨idx, nms, cols⟩ := t
  unfold filterRows
  simp only []
  have h1 : pickRows keep idx = idx := pickRows_all keep idx h
  have h2 : cols.map (pickRows keep) = cols := by
    have h3 : ∀ c ∈ cols, pickRows keep c = c := by
      intro c hc
      refine pickRows_all keep c ?_
      intro i hi
      refine h i ?_
      rw [← hwf c hc]
      exact hi
    rw [List.map_congr_left h3]
    exact List.map_id cols
  rw [h1, h2]

theorem fdThresh_le_cols (t : DF) (hne : t.cols.length ≠ 0) :
    fdThresh t ≤ t.cols.length := by
  unfold fdThresh
  split <;> omega

theorem fake_date_slice_getD_id (t : DF) (h : t.complete) (hwf : t.wf) :
    (fake_date_fill t "slice").getD t = t := by
  rw [fake_date_fill_slice_eq]
  have h2 : fdT2 t = t := fdT2_id t h
  have h3 : fdT3 t = filterRows t (fun i => fdThresh t ≤ rowPresentCount t i) := by
    unfold fdT3
    rw [h2]
  rw [h3, h2]
  split
  · show fill_forward t = t
    exact fill_forward_id t h
  · rename_i hcond
    show fill_forward (filterRows t _) = t
    have hcols : ¬ (filterRows t (fun i => fdThresh t ≤ rowPresentCount t i)).cols.isEmpty
        = true := by
      intro hemp
      apply hcond
      unfold DF.isEmptyDF
      rw [hemp]
      simp
    have hne : t.cols.length ≠ 0 := by
      intro h0
      apply hcols
      show (t.cols.map (pickRows _)).isEmpty = true
      rw [List.isEmpty_iff]
      rw [List.isEmpty_iff] at *
      exact List.map_eq_nil_iff.mpr (List.length_eq_zero.mp h0)
    have h4 : filterRows t (fun i => fdThresh t ≤ rowPresentCount t i) = t := by
      refine filterRows_all t _ hwf ?_
      intro i hi
      have h5 := rowPresentCount_full t h hwf i hi
      have h6 := fdThresh_le_cols t hne
      simp only [decide_eq_true_eq]
      omega
    rw [h4]
    exact fill_forward_id t h

theorem fake_date_slice_names_complete (t : DF) :
    ((fake_date_fill t "slice").getD t).names = t.names ∧
      ((fake_date_fill t "slice").getD t).complete := by
  rw [fake_date_fill_slice_eq]
  split
  · refine ⟨?_, fill_forward_complete _⟩
    show (fdT2 t).names = t.names
    exact fdT2_names t
  · refine ⟨?_, fill_forward_complete _⟩
    show (fdT3 t).names = t.names
    show (fdT2 t).names = t.names
    exact fdT2_names t

theorem fake_date_slice_all_getD_id (t : DF) (h : t.complete) (hwf : t.wf) :
    (fake_date_fill t "slice_all").getD t = t := by
  rw [fake_date_fill_slice_all_eq]
  have h2 : fdT2 t = t := fdT2_id t h
  rw [h2]
  show filterRows t _ = t
  refine filterRows_all t _ hwf ?_
  intro i hi
  rw [List.all_eq_true]
  intro c hc
  have hi' : i < c.length := by
    rw [hwf c hc]
    exact hi
  exact h c hc _ (getD_mem_of_lt c i hi' none)

theorem fake_date_slice_all_names_complete (t : DF) :
    ((fake_date_fill t "slice_all").getD t).names = t.names ∧
      ((fake_date_fill t "slice_all").getD t).complete := by
  rw [fake_date_fill_slice_all_eq]
  constructor
  · show (fdT2 t).names = t.names
    exact fdT2_names t
  · intro c hc x hx
    show x.isSome = true
    obtain ⟨c₀, hc₀, rfl⟩ := List.mem_map.mp hc
    obtain ⟨i, hi, hkeep, hx_eq⟩ := mem_pickRows _ _ _ hx
    have h5 := (List.all_eq_true.mp hkeep) c₀ hc₀
    rw [← hx_eq, getD_eq_of_lt c₀ i hi x none]
    exact h5

/-- `keepna` under well-formedness: each compressed column is the missing cells
first, then the present values in original order. -/
theorem fake_date_keepna_char (t : DF) (hwf : t.wf) :
    fake_date_fill t "keepna" = some
      ⟨t.index, t.names, t.cols.map
        (fun c => List.replicate (countNone c) none ++ c.filter (fun x => x.isSome))⟩ := by
  rw [fake_date_fill_keepna_eq]
  refine congrArg some ?_
  unfold fdT2
  split
  · rename_i hguard
    unfold fill_zero
    obtain ⟨idx, nms, cols⟩ := t
    simp only []
    refine congrArg _ ?_
    unfold fdComp DF.isEmptyDF at hguard
    simp only [Bool.or_eq_true, List.isEmpty_iff] at hguard
    rcases hguard with hidx | hcols
    · refine List.map_congr_left ?_
      intro c hc
      have hc0 : c = [] := by
        have := hwf c hc
        rw [hidx] at this
        exact List.length_eq_zero.mp this
      rw [hc0]
      rfl
    · have hcols' : cols = [] := by
        simpa using hcols
      rw [hcols']
      rfl
  · unfold fdComp
    obtain ⟨idx, nms, cols⟩ := t
    simp only []
    refine congrArg _ ?_
    exact List.map_congr_left (fun c _ => compressColumn_eq c)

/-! ### Dispatcher branch helpers -/

theorem bfillDF_id (t : DF) (h : t.complete) : bfillDF t = t := by
  obtain ⟨idx, nms, cols⟩ := t
  unfold bfillDF
  simp only []
  congr 1
  rw [List.map_congr_left (fun c hc => bfillCol_of_complete c (h c hc))]
  exact List.map_id cols

theorem anyNull_eq_false_of_complete (t : DF) (h : t.complete) : t.anyNull = false := by
  rcases hna : t.anyNull
  · rfl
  · exfalso
    unfold DF.anyNull at hna
    obtain ⟨c, hc, hcany⟩ := List.any_eq_true.mp hna
    obtain ⟨x, hx, hxn⟩ := List.any_eq_true.mp hcany
    have h2 := h c hc x hx
    cases x
    · simp at h2
    · simp at hxn

theorem complete_of_not_anyNull (u : DF) (h : u.anyNull = false) : u.complete := by
  intro c hc x hx
  cases x with
  | some v => rfl
  | none =>
    exfalso
    have h2 : u.anyNull = true := by
      unfold DF.anyNull
      rw [List.any_eq_true]
      exact ⟨c, hc, List.any_eq_true.mpr ⟨none, hx, rfl⟩⟩
    rw [h] at h2
    exact Bool.noConfusion h2

theorem interpBranch_names (co : Collab) (m : String) (t : DF)
    (h : (co.interp m t).names = t.names) : (interpBranch co m t).names = t.names := by
  show (if (bfillDF (co.interp m t)).anyNull = true
    then fill_forward (bfillDF (co.interp m t))
    else bfillDF (co.interp m t)).names = t.names
  split
  · show (co.interp m t).names = t.names
    exact h
  · show (co.interp m t).names = t.names
    exact h

theorem interpBranch_index (co : Collab) (m : String) (t : DF)
    (h : (co.interp m t).index = t.index) : (interpBranch co m t).index = t.index := by
  show (if (bfillDF (co.interp m t)).anyNull = true
    then fill_forward (bfillDF (co.interp m t))
    else bfillDF (co.interp m t)).index = t.index
  split
  · show (co.interp m t).index = t.index
    exact h
  · show (co.interp m t).index = t.index
    exact h

theorem interpBranch_complete (co : Collab) (m : String) (t : DF) :
    (interpBranch co m t).complete := by
  show (if (bfillDF (co.interp m t)).anyNull = true
    then fill_forward (bfillDF (co.interp m t))
    else bfillDF (co.interp m t)).complete
  split
  · exact fill_forward_complete _
  · rename_i hcond
    exact complete_of_not_anyNull _ (by
      rcases h : (bfillDF (co.interp m t)).anyNull
      · rfl
      · exact absurd h hcond)

theorem interpBranch_id (co : Collab) (m : String) (t : DF) (hc : t.complete)
    (h : co.interp m t = t) : interpBranch co m t = t := by
  show (if (bfillDF (co.interp m t)).anyNull = true
    then fill_forward (bfillDF (co.interp m t))
    else bfillDF (co.interp m t)) = t
  rw [h, bfillDF_id t hc, anyNull_eq_false_of_complete t hc]
  simp

theorem wrapEstimator_complete (t : DF) (a : List (List ℚ)) :
    (wrapEstimator t a).complete := by
  intro c hc x hx
  obtain ⟨c₀, _, rfl⟩ := List.mem_map.mp hc
  obtain ⟨y, _, rfl⟩ := List.mem_map.mp hx
  rfl

theorem wrapEstimator_toVals_id (t : DF) (hc : t.complete) :
    wrapEstimator t (toVals t) = t := by
  obtain ⟨idx, nms, cols⟩ := t
  unfold wrapEstimator toVals
  simp only []
  congr 1
  rw [List.map_map]
  have h2 : ∀ c ∈ cols, ((List.map some ∘ List.map fun x => x.getD 0) c) = c := by
    intro c hcm
    show (c.map (fun x => x.getD 0)).map some = c
    rw [List.map_map]
    have h3 : ∀ x ∈ c, ((some ∘ fun x₀ : Option ℚ => x₀.getD 0) x) = x := by
      intro x hx
      have h4 := hc c hcm x hx
      cases x
      · simp at h4
      · rfl
    rw [List.map_congr_left h3]
    exact List.map_id c
  rw [List.map_congr_left h2]
  exact List.map_id cols

theorem impute_complete (imp : SeasonalityMotifImputer) (rank : SeasonalRank) (t : DF) :
    (imp.impute rank t).complete := by
  intro c hc x hx
  unfold SeasonalityMotifImputer.impute at hc
  obtain ⟨c₀, _, rfl⟩ := List.mem_map.mp hc
  obtain ⟨i, _, rfl⟩ := List.mem_map.mp hx
  cases c₀.getD i none
  · rfl
  · rfl

theorem impute_id (imp : SeasonalityMotifImputer) (rank : SeasonalRank) (t : DF)
    (hc : t.complete) : imp.impute rank t = t := by
  obtain ⟨idx, nms, cols⟩ := t
  unfold SeasonalityMotifImputer.impute
  simp only []
  congr 1
  have h2 : ∀ c ∈ cols, (List.range c.length).map (fun i =>
      match c.getD i none with
      | some v => some v
      | none => some (maskedAnalogSum (analogVals rank c i) imp.k / (imp.k : ℚ))) = c := by
    intro c hcm
    have h3 : ∀ i ∈ List.range c.length, (match c.getD i none with
        | some v => some v
        | none => some (maskedAnalogSum (analogVals rank c i) imp.k / (imp.k : ℚ)))
        = c.getD i none := by
      intro i hi
      have hi' : i < c.length := List.mem_range.mp hi
      have h4 := hc c hcm _ (getD_mem_of_lt c i hi' none)
      obtain ⟨v, hv⟩ := Option.isSome_iff_exists.mp h4
      rw [hv]
    rw [List.map_congr_left h3]
    exact map_getD_range c none
  rw [List.map_congr_left h2]
  exact List.map_id cols

/-! ### Claim theorems -/

/-- C1, counterexample: on the column `[v1, NaN, v3, NaN, v5]` the `keepna`
compression puts the missing entries at the HEAD, `[NaN, NaN, v1, v3, v5]`,
not at the tail `[v1, v3, v5, NaN, NaN]` stated by the claim. -/
theorem C1_counterexample :
    fake_date_fill (DF.mk [0, 1, 2, 3, 4] ["a"]
        [[some 1, none, some 3, none, some 5]]) "keepna"
      = some (DF.mk [0, 1, 2, 3, 4] ["a"] [[none, none, some 1, some 3, some 5]]) ∧
    some (DF.mk [0, 1, 2, 3, 4] ["a"] [[none, none, some 1, some 3, some 5]])
      ≠ some (DF.mk [0, 1, 2, 3, 4] ["a"] [[some 1, some 3, some 5, none, none]]) := by
  constructor
  · decide
  · decide

/-- C1 (amended): for every well-formed table, `keepna` compression lays out
each column as all the missing entries first (at the head), followed by the
present values in their original relative order; in particular
`[v1, NaN, v3, NaN, v5]` becomes `[NaN, NaN, v1, v3, v5]`. -/
theorem C1_keepna_layout (t : DF) (hwf : t.wf) :
    fake_date_fill t "keepna" = some
      ⟨t.index, t.names, t.cols.map
        (fun c => List.replicate (countNone c) none ++ c.filter (fun x => x.isSome))⟩ :=
  fake_date_keepna_char t hwf

theorem C1_keepna_layout_witness :
    DF.wf (DF.mk [0, 1, 2] ["a"] [[some 2, none, some 7]]) ∧
    fake_date_fill (DF.mk [0, 1, 2] ["a"] [[some 2, none, some 7]]) "keepna" = some
      ⟨[0, 1, 2], ["a"], [[some 2, none, some 7]].map
        (fun c => List.replicate (countNone c) none ++ c.filter (fun x => x.isSome))⟩ :=
  ⟨by decide, C1_keepna_layout (DF.mk [0, 1, 2] ["a"] [[some 2, none, some 7]]) (by decide)⟩

/-- C2, counterexample: with `k = 3` and exactly one valid analog of value `3`,
the imputed cell holds `1` (the analog sum divided by `k`), not `3`. -/
theorem C2_counterexample :
    (analogVals (fun _ => [0, 1, 2, 3]) [none, some 3, none, none] 0).filterMap id
      = [(3 : ℚ)] ∧
    (((SeasonalityMotifImputer.mk 3 "common_fourier" "canberra").impute
        (fun _ => [0, 1, 2, 3])
        (DF.mk [0, 1, 2, 3] ["a"] [[none, some 3, none, none]])).cols.getD 0 []).getD 0 none
      = some 1 ∧
    some (1 : ℚ) ≠ some (3 : ℚ) := by
  refine ⟨by decide, ?_, by norm_num⟩
  rw [impute_missing_cell (SeasonalityMotifImputer.mk 3 "common_fourier" "canberra")
    (fun _ => [0, 1, 2, 3]) (DF.mk [0, 1, 2, 3] ["a"] [[none, some 3, none, none]])
    0 0 (by decide) (by decide) (by decide)]
  have h1 : (analogVals (fun _ => [0, 1, 2, 3])
      ((DF.mk [0, 1, 2, 3] ["a"] [[none, some 3, none, none]]).cols.getD 0 []) 0).filterMap id
      = [(3 : ℚ)] := by decide
  rw [h1]
  norm_num

/-- C2 (amended): when a missing cell has at most `k` valid seasonal analogs,
`impute` writes the SUM of the available analog values divided by `k` (not the
mean over the available count); with `k = 3` and a single analog `v` the cell
receives `v / 3`. -/
theorem C2_sum_over_k (imp : SeasonalityMotifImputer) (rank : SeasonalRank) (t : DF)
    (j i : Nat) (hj : j < t.cols.length) (hi : i < (t.cols.getD j []).length)
    (hmiss : (t.cols.getD j []).getD i none = none)
    (hlen : ((analogVals rank (t.cols.getD j []) i).filterMap id).length ≤ imp.k) :
    ((imp.impute rank t).cols.getD j []).getD i none =
      some (((analogVals rank (t.cols.getD j []) i).filterMap id).sum / (imp.k : ℚ)) := by
  rw [impute_missing_cell imp rank t j i hj hi hmiss]
  rw [List.take_of_length_le hlen]

theorem C2_sum_over_k_witness :
    (0 < (DF.mk [0, 1, 2, 3] ["b"] [[none, some 5, none, none]]).cols.length ∧
     0 < ((DF.mk [0, 1, 2, 3] ["b"] [[none, some 5, none, none]]).cols.getD 0 []).length ∧
     ((DF.mk [0, 1, 2, 3] ["b"] [[none, some 5, none, none]]).cols.getD 0 []).getD 0 none
       = none ∧
     ((analogVals (fun _ => [0, 1, 2, 3])
        ((DF.mk [0, 1, 2, 3] ["b"] [[none, some 5, none, none]]).cols.getD 0 []) 0).filterMap
          id).length ≤ 3) ∧
    (((SeasonalityMotifImputer.mk 3 "common_fourier" "canberra").impute
        (fun _ => [0, 1, 2, 3])
        (DF.mk [0, 1, 2, 3] ["b"] [[none, some 5, none, none]])).cols.getD 0 []).getD 0 none =
      some (((analogVals (fun _ => [0, 1, 2, 3])
        ((DF.mk [0, 1, 2, 3] ["b"] [[none, some 5, none, none]]).cols.getD 0 []) 0).filterMap
          id).sum / ((3 : Nat) : ℚ)) :=
  ⟨⟨by decide, by decide, by decide, by decide⟩,
    C2_sum_over_k (SeasonalityMotifImputer.mk 3 "common_fourier" "canberra")
      (fun _ => [0, 1, 2, 3]) (DF.mk [0, 1, 2, 3] ["b"] [[none, some 5, none, none]])
      0 0 (by decide) (by decide) (by decide) (by decide)⟩

/-- C3, counterexample: in an entirely missing column (zero valid analogs) the
imputed cell becomes `0`, it is NOT left missing as the claim states. -/
theorem C3_counterexample :
    (((SeasonalityMotifImputer.mk 3 "common_fourier" "canberra").impute
        (fun _ => [0, 1]) (DF.mk [0, 1] ["a"] [[none, none]])).cols.getD 0 []).getD 0 none
      = some 0 ∧
    (((SeasonalityMotifImputer.mk 3 "common_fourier" "canberra").impute
        (fun _ => [0, 1]) (DF.mk [0, 1] ["a"] [[none, none]])).cols.getD 0 []).getD 0 none
      ≠ none := by
  have h2 : (((SeasonalityMotifImputer.mk 3 "common_fourier" "canberra").impute
      (fun _ => [0, 1]) (DF.mk [0, 1] ["a"] [[none, none]])).cols.getD 0 []).getD 0 none
      = some 0 := by
    rw [impute_missing_cell (SeasonalityMotifImputer.mk 3 "common_fourier" "canberra")
      (fun _ => [0, 1]) (DF.mk [0, 1] ["a"] [[none, none]]) 0 0
      (by decide) (by decide) (by decide)]
    have h1 : (analogVals (fun _ => [0, 1])
        ((DF.mk [0, 1] ["a"] [[none, none]]).cols.getD 0 []) 0).filterMap id = [] := by
      decide
    rw [h1]
    norm_num
  exact ⟨h2, by rw [h2]; exact Option.noConfusion⟩

/-- C3 (amended): a missing cell with zero valid seasonal analogs is filled
with `0` (the empty masked sum divided by `k`); `impute` is total and never
leaves a cell missing. -/
theorem C3_zero_analogs_zero (imp : SeasonalityMotifImputer) (rank : SeasonalRank)
    (t : DF) (j i : Nat) (hj : j < t.cols.length)
    (hi : i < (t.cols.getD j []).length)
    (hmiss : (t.cols.getD j []).getD i none = none)
    (hzero : (analogVals rank (t.cols.getD j []) i).filterMap id = []) :
    ((imp.impute rank t).cols.getD j []).getD i none = some 0 := by
  rw [impute_missing_cell imp rank t j i hj hi hmiss, hzero]
  simp

theorem C3_zero_analogs_zero_witness :
    (0 < (DF.mk [0, 1] ["c"] [[none, none]]).cols.length ∧
     0 < ((DF.mk [0, 1] ["c"] [[none, none]]).cols.getD 0 []).length ∧
     ((DF.mk [0, 1] ["c"] [[none, none]]).cols.getD 0 []).getD 0 none = none ∧
     (analogVals (fun _ => [1, 0])
        ((DF.mk [0, 1] ["c"] [[none, none]]).cols.getD 0 []) 0).filterMap id = []) ∧
    (((SeasonalityMotifImputer.mk 3 "simple_2" "canberra").impute (fun _ => [1, 0])
        (DF.mk [0, 1] ["c"] [[none, none]])).cols.getD 0 []).getD 0 none = some 0 :=
  ⟨⟨by decide, by decide, by decide, by decide⟩,
    C3_zero_analogs_zero (SeasonalityMotifImputer.mk 3 "simple_2" "canberra")
      (fun _ => [1, 0]) (DF.mk [0, 1] ["c"] [[none, none]]) 0 0
      (by decide) (by decide) (by decide) (by decide)⟩

/-- C5 (code bug): an entirely missing (nonempty) table is NOT zero-filled by
the `df2.empty` guard — the compressed frame always keeps the input's shape, so
the guard retained from the pre-vectorized version is dead and `keepna` returns
the table still entirely missing. -/
theorem C5_dead_guard :
    fake_date_fill (DF.mk [0] ["a"] [[none]]) "keepna"
      = some (DF.mk [0] ["a"] [[none]]) ∧
    fake_date_fill (DF.mk [0] ["a"] [[none]]) "keepna"
      ≠ some (DF.mk [0] ["a"] [[some 0]]) := by
  constructor
  · decide
  · decide

/-- C6: an unrecognized `back_method` makes `fake_date_fill` raise
(modelled as `none`); there is no silent fallback. -/
theorem C6_unknown_policy_raises (t : DF) (bm : String)
    (h : bm ∉ (["bfill", "slice", "slice_all", "keepna"] : List String)) :
    fake_date_fill t bm = none := by
  unfold fake_date_fill
  rw [if_neg (ne_of_not_mem h (by decide)), if_neg (ne_of_not_mem h (by decide)),
    if_neg (ne_of_not_mem h (by decide)), if_neg (ne_of_not_mem h (by decide))]

theorem C6_unknown_policy_raises_witness :
    ("slcie" ∉ (["bfill", "slice", "slice_all", "keepna"] : List String)) ∧
    fake_date_fill (DF.mk [0] ["a"] [[some 1]]) "slcie" = none :=
  ⟨by decide, C6_unknown_policy_raises (DF.mk [0] ["a"] [[some 1]]) "slcie" (by decide)⟩

/-- C9: `keepna` compression is a per-column permutation — the output has the
same index, labels and shape, each column keeps its non-missing values in the
same order and its number of missing cells. -/
theorem C9_compression_preserves (t : DF) (hwf : t.wf) :
    ∃ t', fake_date_fill t "keepna" = some t' ∧ t'.index = t.index ∧
      t'.names = t.names ∧ t'.cols.length = t.cols.length ∧
      ∀ j, j < t.cols.length →
        (t'.cols.getD j []).length = (t.cols.getD j []).length ∧
        presentVals (t'.cols.getD j []) = presentVals (t.cols.getD j []) ∧
        countNone (t'.cols.getD j []) = countNone (t.cols.getD j []) := by
  refine ⟨_, fake_date_keepna_char t hwf, rfl, rfl, by simp, ?_⟩
  intro j hj
  show ((t.cols.map _).getD j []).length = _ ∧ _ ∧ _
  rw [getD_map_of_lt _ t.cols j hj [] []]
  rw [← compressColumn_eq]
  exact ⟨length_compressColumn _, presentVals_compressColumn _,
    countNone_compressColumn _⟩

theorem C9_compression_preserves_witness :
    DF.wf (DF.mk [0, 1, 2] ["a", "b"] [[none, some 4, none], [some 1, some 2, some 3]]) ∧
    ∃ t', fake_date_fill (DF.mk [0, 1, 2] ["a", "b"]
        [[none, some 4, none], [some 1, some 2, some 3]]) "keepna" = some t' ∧
      t'.index = [0, 1, 2] ∧ t'.names = ["a", "b"] ∧
      t'.cols.length = 2 ∧
      ∀ j, j < ([[none, some 4, none], [some 1, some 2, some 3]] :
          List (List (Option ℚ))).length →
        (t'.cols.getD j []).length
          = (([[none, some 4, none], [some 1, some 2, some 3]] :
              List (List (Option ℚ))).getD j []).length ∧
        presentVals (t'.cols.getD j [])
          = presentVals (([[none, some 4, none], [some 1, some 2, some 3]] :
              List (List (Option ℚ))).getD j []) ∧
        countNone (t'.cols.getD j [])
          = countNone (([[none, some 4, none], [some 1, some 2, some 3]] :
              List (List (Option ℚ))).getD j []) :=
  ⟨by decide, C9_compression_preserves _ (by decide)⟩

/-- C10: `fill_mean` and `fill_median` turn an entirely missing column into an
all-zero column (the missing column statistic is replaced by zero). -/
theorem C10_allmissing_zero (t : DF) (j : Nat) (hj : j < t.cols.length)
    (hall : ∀ x ∈ t.cols.getD j [], x = none) :
    (fill_mean t).cols.getD j [] =
      List.replicate (t.cols.getD j []).length (some (0 : ℚ)) ∧
    (fill_median t).cols.getD j [] =
      List.replicate (t.cols.getD j []).length (some (0 : ℚ)) := by
  have hpv : presentVals (t.cols.getD j []) = [] := by
    unfold presentVals
    rw [List.filterMap_eq_nil_iff]
    intro a ha
    rw [hall a ha]
    rfl
  have hmean : nanmeanCol (t.cols.getD j []) = none := by
    unfold nanmeanCol
    rw [hpv]
    rfl
  have hmed : nanmedianCol (t.cols.getD j []) = none := by
    unfold nanmedianCol
    rw [hpv]
    rfl
  constructor
  · show ((t.cols.map _).getD j []) = _
    rw [getD_map_of_lt _ t.cols j hj [] []]
    refine List.eq_replicate_iff.mpr ⟨by rw [List.length_map], ?_⟩
    intro b hb
    obtain ⟨x, hx, rfl⟩ := List.mem_map.mp hb
    rw [hall x hx, hmean]
    norm_num
  · show ((t.cols.map _).getD j []) = _
    rw [getD_map_of_lt _ t.cols j hj [] []]
    refine List.eq_replicate_iff.mpr ⟨by rw [List.length_map], ?_⟩
    intro b hb
    obtain ⟨x, hx, rfl⟩ := List.mem_map.mp hb
    rw [hall x hx, hmed]
    norm_num

theorem C10_allmissing_zero_witness :
    (0 < (DF.mk [0, 1] ["a", "b"] [[none, none], [some 1, some 3]]).cols.length ∧
     ∀ x ∈ (DF.mk [0, 1] ["a", "b"]
        [[none, none], [some 1, some 3]]).cols.getD 0 [], x = none) ∧
    ((fill_mean (DF.mk [0, 1] ["a", "b"] [[none, none], [some 1, some 3]])).cols.getD 0 []
        = List.replicate 2 (some (0 : ℚ)) ∧
     (fill_median (DF.mk [0, 1] ["a", "b"] [[none, none], [some 1, some 3]])).cols.getD 0 []
        = List.replicate 2 (some (0 : ℚ))) :=
  ⟨⟨by decide, by decide⟩,
    C10_allmissing_zero (DF.mk [0, 1] ["a", "b"] [[none, none], [some 1, some 3]]) 0
      (by decide) (by decide)⟩
/-- C4 (amended): every recognized method preserves the column labels; every
recognized method other than `fake_date` and `fake_date_slice` (whose slicing
tail policies may drop rows) returns an identical row index; and every
recognized method other than `None` returns a table with no missing cells —
including `SeasonalityMotifImputer`, whose zero-analog cells are filled with
`0` rather than left missing. -/
theorem C4_shape_and_coverage (co : Collab)
    (hint : ∀ m u, (co.interp m u).index = u.index ∧ (co.interp m u).names = u.names)
    (hdp : ∀ u, (co.datepart u).index = u.index ∧ (co.datepart u).names = u.names ∧
      (co.datepart u).complete)
    (t : DF) (method : String) (w : Nat)
    (hm : normalizeMethod method ∈ recognizedMethods) :
    (FillNA co t method w).names = t.names ∧
    (normalizeMethod method ∉ (["fake_date", "fake_date_slice"] : List String) →
      (FillNA co t method w).index = t.index) ∧
    (normalizeMethod method ≠ "None" → (FillNA co t method w).complete) := by
  simp only [recognizedMethods, df_interpolate_full, List.mem_append,
    List.mem_cons, List.not_mem_nil, or_false] at hm
  rcases hm with ((h | h | h | h | h | h | h | h | h) | h | h | h | h | h | h |
    h | h | h | h | h | h | h | h | h | h | h) | h | h | h | h | h | h
  · have hF : FillNA co t method w = fill_zero t := by
      simp only [FillNA]
      rw [h]
      rfl
    rw [hF]
    exact ⟨rfl, fun _ => rfl, fun _ => fill_zero_complete t⟩
  · have hF : FillNA co t method w = fill_forward t := by
      simp only [FillNA]
      rw [h]
      rfl
    rw [hF]
    exact ⟨rfl, fun _ => rfl, fun _ => fill_forward_complete t⟩
  · have hF : FillNA co t method w = fill_mean t := by
      simp only [FillNA]
      rw [h]
      rfl
    rw [hF]
    exact ⟨rfl, fun _ => rfl, fun _ => fill_mean_complete t⟩
  · have hF : FillNA co t method w = fill_median t := by
      simp only [FillNA]
      rw [h]
      rfl
    rw [hF]
    exact ⟨rfl, fun _ => rfl, fun _ => fill_median_complete t⟩
  · have hF : FillNA co t method w = rolling_mean t w := by
      simp only [FillNA]
      rw [h]
      rfl
    rw [hF]
    exact ⟨rfl, fun _ => rfl, fun _ => rolling_mean_complete t w⟩
  · have hF : FillNA co t method w = rolling_mean t 24 := by
      simp only [FillNA]
      rw [h]
      rfl
    rw [hF]
    exact ⟨rfl, fun _ => rfl, fun _ => rolling_mean_complete t 24⟩
  · have hF : FillNA co t method w = biased_ffill t 1 := by
      simp only [FillNA]
      rw [h]
      rfl
    rw [hF]
    exact ⟨rfl, fun _ => rfl, fun _ => biased_ffill_complete t⟩
  · have hF : FillNA co t method w = (fake_date_fill t "slice").getD t := by
      simp only [FillNA]
      rw [h]
      rfl
    rw [hF]
    refine ⟨(fake_date_slice_names_complete t).1, ?_,
      fun _ => (fake_date_slice_names_complete t).2⟩
    intro hnot
    exact absurd (show normalizeMethod method ∈
      (["fake_date", "fake_date_slice"] : List String) by rw [h]; decide) hnot
  · have hF : FillNA co t method w = (fake_date_fill t "slice_all").getD t := by
      simp only [FillNA]
      rw [h]
      rfl
    rw [hF]
    refine ⟨(fake_date_slice_all_names_complete t).1, ?_,
      fun _ => (fake_date_slice_all_names_complete t).2⟩
    intro hnot
    exact absurd (show normalizeMethod method ∈
      (["fake_date", "fake_date_slice"] : List String) by rw [h]; decide) hnot
  · have hF : FillNA co t method w = interpBranch co "linear" t := by
      simp only [FillNA]
      rw [h]
      rfl
    rw [hF]
    exact ⟨interpBranch_names co "linear" t (hint "linear" t).2,
      fun _ => interpBranch_index co "linear" t (hint "linear" t).1,
      fun _ => interpBranch_complete co "linear" t⟩
  · have hF : FillNA co t method w = interpBranch co "time" t := by
      simp only [FillNA]
      rw [h]
      rfl
    rw [hF]
    exact ⟨interpBranch_names co "time" t (hint "time" t).2,
      fun _ => interpBranch_index co "time" t (hint "time" t).1,
      fun _ => interpBranch_complete co "time" t⟩
  · have hF : FillNA co t method w = interpBranch co "pad" t := by
      simp only [FillNA]
      rw [h]
      rfl
    rw [hF]
    exact ⟨interpBranch_names co "pad" t (hint "pad" t).2,
      fun _ => interpBranch_index co "pad" t (hint "pad" t).1,
      fun _ => interpBranch_complete co "pad" t⟩
  · have hF : FillNA co t method w = interpBranch co "nearest" t := by
      simp only [FillNA]
      rw [h]
      rfl
    rw [hF]
    exact ⟨interpBranch_names co "nearest" t (hint "nearest" t).2,
      fun _ => interpBranch_index co "nearest" t (hint "nearest" t).1,
      fun _ => interpBranch_complete co "nearest" t⟩
  · have hF : FillNA co t method w = fill_zero t := by
      simp only [FillNA]
      rw [h]
      rfl
    rw [hF]
    exact ⟨rfl, fun _ => rfl, fun _ => fill_zero_complete t⟩
  · have hF : FillNA co t method w = interpBranch co "quadratic" t := by
      simp only [FillNA]
      rw [h]
      rfl
    rw [hF]
    exact ⟨interpBranch_names co "quadratic" t (hint "quadratic" t).2,
      fun _ => interpBranch_index co "quadratic" t (hint "quadratic" t).1,
      fun _ => interpBranch_complete co "quadratic" t⟩
  · have hF : FillNA co t method w = interpBranch co "cubic" t := by
      simp only [FillNA]
      rw [h]
      rfl
    rw [hF]
    exact ⟨interpBranch_names co "cubic" t (hint "cubic" t).2,
      fun _ => interpBranch_index co "cubic" t (hint "cubic" t).1,
      fun _ => interpBranch_complete co "cubic" t⟩
  · have hF : FillNA co t method w = interpBranch co "spline" t := by
      simp only [FillNA]
      rw [h]
      rfl
    rw [hF]
    exact ⟨interpBranch_names co "spline" t (hint "spline" t).2,
      fun _ => interpBranch_index co "spline" t (hint "spline" t).1,
      fun _ => interpBranch_complete co "spline" t⟩
  · have hF : FillNA co t method w = interpBranch co "barycentric" t := by
      simp only [FillNA]
      rw [h]
      rfl
    rw [hF]
    exact ⟨interpBranch_names co "barycentric" t (hint "barycentric" t).2,
      fun _ => interpBranch_index co "barycentric" t (hint "barycentric" t).1,
      fun _ => interpBranch_complete co "barycentric" t⟩
  · have hF : FillNA co t method w = interpBranch co "piecewise_polynomial" t := by
      simp only [FillNA]
      rw [h]
      rfl
    rw [hF]
    exact ⟨interpBranch_names co "piecewise_polynomial" t (hint "piecewise_polynomial" t).2,
      fun _ => interpBranch_index co "piecewise_polynomial" t (hint "piecewise_polynomial" t).1,
      fun _ => interpBranch_complete co "piecewise_polynomial" t⟩
  · have hF : FillNA co t method w = interpBranch co "pchip" t := by
      simp only [FillNA]
      rw [h]
      rfl
    rw [hF]
    exact ⟨interpBranch_names co "pchip" t (hint "pchip" t).2,
      fun _ => interpBranch_index co "pchip" t (hint "pchip" t).1,
      fun _ => interpBranch_complete co "pchip" t⟩
  · have hF : FillNA co t method w = interpBranch co "akima" t := by
      simp only [FillNA]
      rw [h]
      rfl
    rw [hF]
    exact ⟨interpBranch_names co "akima" t (hint "akima" t).2,
      fun _ => interpBranch_index co "akima" t (hint "akima" t).1,
      fun _ => interpBranch_complete co "akima" t⟩
  · have hF : FillNA co t method w = interpBranch co "polynomial" t := by
      simp only [FillNA]
      rw [h]
      rfl
    rw [hF]
    exact ⟨interpBranch_names co "polynomial" t (hint "polynomial" t).2,
      fun _ => interpBranch_index co "polynomial" t (hint "polynomial" t).1,
      fun _ => interpBranch_complete co "polynomial" t⟩
  · have hF : FillNA co t method w = interpBranch co "krogh" t := by
      simp only [FillNA]
      rw [h]
      rfl
    rw [hF]
    exact ⟨interpBranch_names co "krogh" t (hint "krogh" t).2,
      fun _ => interpBranch_index co "krogh" t (hint "krogh" t).1,
      fun _ => interpBranch_complete co "krogh" t⟩
  · have hF : FillNA co t method w = interpBranch co "cubicspline" t := by
      simp only [FillNA]
      rw [h]
      rfl
    rw [hF]
    exact ⟨interpBranch_names co "cubicspline" t (hint "cubicspline" t).2,
      fun _ => interpBranch_index co "cubicspline" t (hint "cubicspline" t).1,
      fun _ => interpBranch_complete co "cubicspline" t⟩
  · have hF : FillNA co t method w = interpBranch co "from_derivatives" t := by
      simp only [FillNA]
      rw [h]
      rfl
    rw [hF]
    exact ⟨interpBranch_names co "from_derivatives" t (hint "from_derivatives" t).2,
      fun _ => interpBranch_index co "from_derivatives" t (hint "from_derivatives" t).1,
      fun _ => interpBranch_complete co "from_derivatives" t⟩
  · have hF : FillNA co t method w = interpBranch co "slinear" t := by
      simp only [FillNA]
      rw [h]
      rfl
    rw [hF]
    exact ⟨interpBranch_names co "slinear" t (hint "slinear" t).2,
      fun _ => interpBranch_index co "slinear" t (hint "slinear" t).1,
      fun _ => interpBranch_complete co "slinear" t⟩
  · have hF : FillNA co t method w = wrapEstimator t (co.iterative t) := by
      simp only [FillNA]
      rw [h]
      rfl
    rw [hF]
    exact ⟨rfl, fun _ => rfl, fun _ => wrapEstimator_complete t (co.iterative t)⟩
  · have hF : FillNA co t method w = wrapEstimator t (co.iterativeET t) := by
      simp only [FillNA]
      rw [h]
      rfl
    rw [hF]
    exact ⟨rfl, fun _ => rfl, fun _ => wrapEstimator_complete t (co.iterativeET t)⟩
  · have hF : FillNA co t method w = wrapEstimator t (co.knn t) := by
      simp only [FillNA]
      rw [h]
      rfl
    rw [hF]
    exact ⟨rfl, fun _ => rfl, fun _ => wrapEstimator_complete t (co.knn t)⟩
  · have hF : FillNA co t method w = (SeasonalityMotifImputer.mk 3 "common_fourier" "canberra").impute co.rank t := by
      simp only [FillNA]
      rw [h]
      rfl
    rw [hF]
    exact ⟨rfl, fun _ => rfl, fun _ => impute_complete (SeasonalityMotifImputer.mk 3 "common_fourier" "canberra") co.rank t⟩
  · have hF : FillNA co t method w = co.datepart t := by
      simp only [FillNA]
      rw [h]
      rfl
    rw [hF]
    exact ⟨(hdp t).2.1, fun _ => (hdp t).1, fun _ => (hdp t).2.2⟩
  · have hF : FillNA co t method w = t := by
      simp only [FillNA]
      rw [h]
      rfl
    rw [hF]
    exact ⟨rfl, fun _ => rfl, fun hne => absurd h hne⟩

/-- C8: on a complete, well-formed table, every recognized `FillNA` method
returns the table unchanged (identity on complete data); the external
collaborators are assumed, per the spec's §3 invariant, to change only
missing entries. -/
theorem C8_identity_on_complete (co : Collab)
    (hint : ∀ m u, DF.complete u → co.interp m u = u)
    (hit : ∀ u, DF.complete u → co.iterative u = toVals u)
    (hitET : ∀ u, DF.complete u → co.iterativeET u = toVals u)
    (hknn : ∀ u, DF.complete u → co.knn u = toVals u)
    (hdp : ∀ u, DF.complete u → co.datepart u = u)
    (t : DF) (hwf : t.wf) (hc : t.complete) (method : String) (w : Nat)
    (hm : normalizeMethod method ∈ recognizedMethods) :
    FillNA co t method w = t := by
  simp only [recognizedMethods, df_interpolate_full, List.mem_append,
    List.mem_cons, List.not_mem_nil, or_false] at hm
  rcases hm with ((h | h | h | h | h | h | h | h | h) | h | h | h | h | h | h |
    h | h | h | h | h | h | h | h | h | h | h) | h | h | h | h | h | h
  · have hF : FillNA co t method w = fill_zero t := by
      simp only [FillNA]
      rw [h]
      rfl
    rw [hF]
    exact fill_zero_id t hc
  · have hF : FillNA co t method w = fill_forward t := by
      simp only [FillNA]
      rw [h]
      rfl
    rw [hF]
    exact fill_forward_id t hc
  · have hF : FillNA co t method w = fill_mean t := by
      simp only [FillNA]
      rw [h]
      rfl
    rw [hF]
    exact fill_mean_id t hc
  · have hF : FillNA co t method w = fill_median t := by
      simp only [FillNA]
      rw [h]
      rfl
    rw [hF]
    exact fill_median_id t hc
  · have hF : FillNA co t method w = rolling_mean t w := by
      simp only [FillNA]
      rw [h]
      rfl
    rw [hF]
    exact rolling_mean_id t w hc
  · have hF : FillNA co t method w = rolling_mean t 24 := by
      simp only [FillNA]
      rw [h]
      rfl
    rw [hF]
    exact rolling_mean_id t 24 hc
  · have hF : FillNA co t method w = biased_ffill t 1 := by
      simp only [FillNA]
      rw [h]
      rfl
    rw [hF]
    exact biased_ffill_one_id t hc
  · have hF : FillNA co t method w = (fake_date_fill t "slice").getD t := by
      simp only [FillNA]
      rw [h]
      rfl
    rw [hF]
    exact fake_date_slice_getD_id t hc hwf
  · have hF : FillNA co t method w = (fake_date_fill t "slice_all").getD t := by
      simp only [FillNA]
      rw [h]
      rfl
    rw [hF]
    exact fake_date_slice_all_getD_id t hc hwf
  · have hF : FillNA co t method w = interpBranch co "linear" t := by
      simp only [FillNA]
      rw [h]
      rfl
    rw [hF]
    exact interpBranch_id co "linear" t hc (hint "linear" t hc)
  · have hF : FillNA co t method w = interpBranch co "time" t := by
      simp only [FillNA]
      rw [h]
      rfl
    rw [hF]
    exact interpBranch_id co "time" t hc (hint "time" t hc)
  · have hF : FillNA co t method w = interpBranch co "pad" t := by
      simp only [FillNA]
      rw [h]
      rfl
    rw [hF]
    exact interpBranch_id co "pad" t hc (hint "pad" t hc)
  · have hF : FillNA co t method w = interpBranch co "nearest" t := by
      simp only [FillNA]
      rw [h]
      rfl
    rw [hF]
    exact interpBranch_id co "nearest" t hc (hint "nearest" t hc)
  · have hF : FillNA co t method w = fill_zero t := by
      simp only [FillNA]
      rw [h]
      rfl
    rw [hF]
    exact fill_zero_id t hc
  · have hF : FillNA co t method w = interpBranch co "quadratic" t := by
      simp only [FillNA]
      rw [h]
      rfl
    rw [hF]
    exact interpBranch_id co "quadratic" t hc (hint "quadratic" t hc)
  · have hF : FillNA co t method w = interpBranch co "cubic" t := by
      simp only [FillNA]
      rw [h]
      rfl
    rw [hF]
    exact interpBranch_id co "cubic" t hc (hint "cubic" t hc)
  · have hF : FillNA co t method w = interpBranch co "spline" t := by
      simp only [FillNA]
      rw [h]
      rfl
    rw [hF]
    exact interpBranch_id co "spline" t hc (hint "spline" t hc)
  · have hF : FillNA co t method w = interpBranch co "barycentric" t := by
      simp only [FillNA]
      rw [h]
      rfl
    rw [hF]
    exact interpBranch_id co "barycentric" t hc (hint "barycentric" t hc)
  · have hF : FillNA co t method w = interpBranch co "piecewise_polynomial" t := by
      simp only [FillNA]
      rw [h]
      rfl
    rw [hF]
    exact interpBranch_id co "piecewise_polynomial" t hc (hint "piecewise_polynomial" t hc)
  · have hF : FillNA co t method w = interpBranch co "pchip" t := by
      simp only [FillNA]
      rw [h]
      rfl
    rw [hF]
    exact interpBranch_id co "pchip" t hc (hint "pchip" t hc)
  · have hF : FillNA co t method w = interpBranch co "akima" t := by
      simp only [FillNA]
      rw [h]
      rfl
    rw [hF]
    exact interpBranch_id co "akima" t hc (hint "akima" t hc)
  · have hF : FillNA co t method w = interpBranch co "polynomial" t := by
      simp only [FillNA]
      rw [h]
      rfl
    rw [hF]
    exact interpBranch_id co "polynomial" t hc (hint "polynomial" t hc)
  · have hF : FillNA co t method w = interpBranch co "krogh" t := by
      simp only [FillNA]
      rw [h]
      rfl
    rw [hF]
    exact interpBranch_id co "krogh" t hc (hint "krogh" t hc)
  · have hF : FillNA co t method w = interpBranch co "cubicspline" t := by
      simp only [FillNA]
      rw [h]
      rfl
    rw [hF]
    exact interpBranch_id co "cubicspline" t hc (hint "cubicspline" t hc)
  · have hF : FillNA co t method w = interpBranch co "from_derivatives" t := by
      simp only [FillNA]
      rw [h]
      rfl
    rw [hF]
    exact interpBranch_id co "from_derivatives" t hc (hint "from_derivatives" t hc)
  · have hF : FillNA co t method w = interpBranch co "slinear" t := by
      simp only [FillNA]
      rw [h]
      rfl
    rw [hF]
    exact interpBranch_id co "slinear" t hc (hint "slinear" t hc)
  · have hF : FillNA co t method w = wrapEstimator t (co.iterative t) := by
      simp only [FillNA]
      rw [h]
      rfl
    rw [hF, hit t hc]
    exact wrapEstimator_toVals_id t hc
  · have hF : FillNA co t method w = wrapEstimator t (co.iterativeET t) := by
      simp only [FillNA]
      rw [h]
      rfl
    rw [hF, hitET t hc]
    exact wrapEstimator_toVals_id t hc
  · have hF : FillNA co t method w = wrapEstimator t (co.knn t) := by
      simp only [FillNA]
      rw [h]
      rfl
    rw [hF, hknn t hc]
    exact wrapEstimator_toVals_id t hc
  · have hF : FillNA co t method w = (SeasonalityMotifImputer.mk 3 "common_fourier" "canberra").impute co.rank t := by
      simp only [FillNA]
      rw [h]
      rfl
    rw [hF]
    exact impute_id (SeasonalityMotifImputer.mk 3 "common_fourier" "canberra") co.rank t hc
  · have hF : FillNA co t method w = co.datepart t := by
      simp only [FillNA]
      rw [h]
      rfl
    rw [hF]
    exact hdp t hc
  · have hF : FillNA co t method w = t := by
      simp only [FillNA]
      rw [h]
      rfl
    exact hF

/-- C7: an unrecognized method identifier makes `FillNA` return the input
table unchanged — it does not raise (the embedding is total) and only prints
a diagnostic. -/
theorem C7_unknown_returns_input (co : Collab) (t : DF) (method : String) (w : Nat)
    (h : normalizeMethod method ∉ recognizedMethods) : FillNA co t method w = t := by
  simp only [FillNA]
  rw [if_neg (ne_of_not_mem h (show "zero" ∈ recognizedMethods by decide)),
    if_neg (ne_of_not_mem h (show "ffill" ∈ recognizedMethods by decide)),
    if_neg (ne_of_not_mem h (show "mean" ∈ recognizedMethods by decide)),
    if_neg (ne_of_not_mem h (show "median" ∈ recognizedMethods by decide)),
    if_neg (ne_of_not_mem h (show "rolling_mean" ∈ recognizedMethods by decide)),
    if_neg (ne_of_not_mem h (show "rolling_mean_24" ∈ recognizedMethods by decide)),
    if_neg (ne_of_not_mem h (show "ffill_mean_biased" ∈ recognizedMethods by decide)),
    if_neg (ne_of_not_mem h (show "fake_date" ∈ recognizedMethods by decide)),
    if_neg (ne_of_not_mem h (show "fake_date_slice" ∈ recognizedMethods by decide)),
    if_neg (not_mem_of_subset h
      (show ∀ x ∈ df_interpolate_full, x ∈ recognizedMethods by decide)),
    if_neg (ne_of_not_mem h (show "IterativeImputer" ∈ recognizedMethods by decide)),
    if_neg (ne_of_not_mem h
      (show "IterativeImputerExtraTrees" ∈ recognizedMethods by decide)),
    if_neg (ne_of_not_mem h (show "KNNImputer" ∈ recognizedMethods by decide)),
    if_neg (ne_of_not_mem h (show "SeasonalityMotifImputer" ∈ recognizedMethods by decide)),
    if_neg (ne_of_not_mem h
      (show "DatepartRegressionImputer" ∈ recognizedMethods by decide)),
    if_neg (ne_of_not_mem h (show "None" ∈ recognizedMethods by decide))]

theorem C7_unknown_returns_input_witness :
    (normalizeMethod "not_a_real_method" ∉ recognizedMethods) ∧
    FillNA trivialCollab (DF.mk [0, 1] ["a"] [[some 1, none]]) "not_a_real_method" 10
      = DF.mk [0, 1] ["a"] [[some 1, none]] :=
  ⟨by decide, C7_unknown_returns_input trivialCollab
    (DF.mk [0, 1] ["a"] [[some 1, none]]) "not_a_real_method" 10 (by decide)⟩

theorem C4_shape_and_coverage_witness :
    ((∀ m u, (trivialCollab.interp m u).index = u.index ∧
        (trivialCollab.interp m u).names = u.names) ∧
     (∀ u, (trivialCollab.datepart u).index = u.index ∧
        (trivialCollab.datepart u).names = u.names ∧ (trivialCollab.datepart u).complete) ∧
     normalizeMethod "rolling mean" ∈ recognizedMethods) ∧
    ((FillNA trivialCollab (DF.mk [0, 1] ["a"] [[some 1, none]]) "rolling mean" 2).names
        = ["a"] ∧
     (normalizeMethod "rolling mean" ∉ (["fake_date", "fake_date_slice"] : List String) →
       (FillNA trivialCollab (DF.mk [0, 1] ["a"] [[some 1, none]]) "rolling mean" 2).index
         = [0, 1]) ∧
     (normalizeMethod "rolling mean" ≠ "None" →
       (FillNA trivialCollab (DF.mk [0, 1] ["a"] [[some 1, none]]) "rolling mean" 2).complete)) :=
  ⟨⟨fun _ _ => ⟨rfl, rfl⟩, fun u => ⟨rfl, rfl, fill_zero_complete u⟩, by decide⟩,
    C4_shape_and_coverage trivialCollab (fun _ _ => ⟨rfl, rfl⟩)
      (fun u => ⟨rfl, rfl, fill_zero_complete u⟩)
      (DF.mk [0, 1] ["a"] [[some 1, none]]) "rolling mean" 2 (by decide)⟩

theorem C8_identity_on_complete_witness :
    ((∀ m u, DF.complete u → trivialCollab.interp m u = u) ∧
     (∀ u, DF.complete u → trivialCollab.iterative u = toVals u) ∧
     (∀ u, DF.complete u → trivialCollab.datepart u = u) ∧
     DF.wf (DF.mk [0, 1] ["a"] [[some 1, some 2]]) ∧
     DF.complete (DF.mk [0, 1] ["a"] [[some 1, some 2]]) ∧
     normalizeMethod "fake date" ∈ recognizedMethods) ∧
    FillNA trivialCollab (DF.mk [0, 1] ["a"] [[some 1, some 2]]) "fake date" 10
      = DF.mk [0, 1] ["a"] [[some 1, some 2]] :=
  ⟨⟨fun _ _ _ => rfl, fun _ _ => rfl, fun u hu => fill_zero_id u hu,
      by decide, by decide, by decide⟩,
    C8_identity_on_complete trivialCollab (fun _ _ _ => rfl) (fun _ _ => rfl)
      (fun _ _ => rfl) (fun _ _ => rfl) (fun u hu => fill_zero_id u hu)
      (DF.mk [0, 1] ["a"] [[some 1, some 2]]) (by decide) (by decide)
      "fake date" 10 (by decide)⟩

/-- C4, counterexample: the `fake_date_slice` method drops the row left
missing after compression, so the returned table does not keep the input's
row index. -/
theorem C4_counterexample :
    FillNA trivialCollab (DF.mk [0, 1] ["a"] [[some 1, none]]) "fake_date_slice" 10
      = DF.mk [1] ["a"] [[some 1]] ∧
    (FillNA trivialCollab (DF.mk [0, 1] ["a"] [[some 1, none]]) "fake_date_slice" 10).index
      ≠ (DF.mk [0, 1] ["a"] [[some 1, none]]).index := by
  constructor
  · decide
  · decide
